import Mathlib

/-!
Shallow embedding of `pyspeedtest.py` (GadgetSteve/pyspeedtest) in Lean 4,
with theorems settling the specification claims about the measurement engine.

Network effects are abstracted: measured round-trip samples, per-request byte
counts and server reply bodies are inputs to the embedded functions; Python
floats are modelled by exact rationals (reals where `math.sqrt` appears);
a raised exception is modelled by `Option`/`Except` error values.
-/

namespace SpeedTest

/-! ## Latency prober (`SpeedTest.ping`, lines 168-193)

The connection handling and the five timed round trips are abstracted to the
list of five elapsed-time samples; the sample post-processing is embedded
verbatim: `worst` starts at 0 and is bumped on strictly greater samples,
`times.remove(worst)` drops the first occurrence of `worst` (raising
`ValueError`, modelled as `none`, if absent), and the remainder is summed
and scaled by 250. -/
/-- The body of the `worst` tracker in `ping`: `if total_ms > worst: worst = total_ms`. -/
def worstStep (w t : ℚ) : ℚ := if w < t then t else w

def ping (times : List ℚ) : Option ℚ :=
  let worst := times.foldl worstStep 0
  if worst ∈ times then
    some ((times.erase worst).sum * 250)
  else
    none

lemma worst_foldl_init_le (l : List ℚ) : ∀ w : ℚ, w ≤ l.foldl worstStep w := by
  induction l with
  | nil => intro w; simp
  | cons x xs ih =>
    intro w
    refine le_trans ?_ (ih (worstStep w x))
    unfold worstStep
    split <;> simp_all [le_of_lt]

lemma worst_foldl_ge_mem (l : List ℚ) :
    ∀ w : ℚ, ∀ x ∈ l, x ≤ l.foldl worstStep w := by
  induction l with
  | nil => intro w x hx; simp at hx
  | cons y ys ih =>
    intro w x hx
    rcases List.mem_cons.mp hx with h | h
    · subst h
      refine le_trans ?_ (worst_foldl_init_le ys (worstStep w x))
      unfold worstStep
      split <;> simp_all [le_of_lt, le_refl]
    · exact ih (worstStep w y) x h

lemma worst_foldl_mem_or_init (l : List ℚ) :
    ∀ w : ℚ, l.foldl worstStep w = w ∨ l.foldl worstStep w ∈ l := by
  induction l with
  | nil => intro w; left; rfl
  | cons y ys ih =>
    intro w
    rcases ih (worstStep w y) with h | h
    · rw [List.foldl_cons, h]
      unfold worstStep
      split
      · right; simp
      · left; rfl
    · right
      rw [List.foldl_cons]
      exact List.mem_cons_of_mem _ h

/-- C1: for any 5 nonnegative latency samples, `ping` removes the first
occurrence of the maximum sample, leaving exactly 4 contributing samples,
and returns `(sum of all 5 - max) * 250`. -/
theorem ping_aggregate (times : List ℚ) (h5 : times.length = 5)
    (hnn : ∀ x ∈ times, 0 ≤ x) :
    ∃ m pre post, times = pre ++ m :: post ∧
      (∀ x ∈ times, x ≤ m) ∧ m ∉ pre ∧
      ping times = some ((pre ++ post).sum * 250) ∧
      (pre ++ post).length = 4 ∧
      ping times = some ((times.sum - m) * 250) := by
  have hne : times ≠ [] := by
    intro h; rw [h] at h5; simp at h5
  set worst := times.foldl worstStep 0 with hw
  have hmem : worst ∈ times := by
    rcases worst_foldl_mem_or_init times 0 with h | h
    · -- the fold returned the initial 0: every sample is ≤ 0 hence = 0,
      -- and in particular the head is 0, so 0 is a member
      rw [hw, h]
      obtain ⟨y, ys, rfl⟩ := List.exists_cons_of_ne_nil hne
      have hy0 : y ≤ 0 := by
        have := worst_foldl_ge_mem (y :: ys) 0 y (by simp)
        rw [h] at this; exact this
      have : y = 0 := le_antisymm hy0 (hnn y (by simp))
      simp [this]
    · exact h
  have hmax : ∀ x ∈ times, x ≤ worst := worst_foldl_ge_mem times 0
  obtain ⟨pre, post, hnotpre, heq, herase⟩ := List.exists_erase_eq hmem
  have hping : ping times = some ((times.erase worst).sum * 250) := by
    unfold ping
    rw [← hw]
    simp [hmem]
  refine ⟨worst, pre, post, heq, hmax, hnotpre, ?_, ?_, ?_⟩
  · rw [hping, herase]
  · have : times.length = (pre ++ worst :: post).length := by rw [← heq]
    simp only [List.length_append, List.length_cons] at this
    rw [h5] at this
    simp only [List.length_append]
    omega
  · rw [hping, herase]
    have : times.sum = (pre ++ worst :: post).sum := by rw [← heq]
    simp only [List.sum_append, List.sum_cons] at this
    have hsum : (pre ++ post).sum = times.sum - worst := by
      simp only [List.sum_append]
      rw [this]; ring
    rw [hsum]

/-- Witness for C1 at the concrete sample list `[1, 2, 3, 2, 1]`. -/
theorem ping_aggregate_witness :
    ∃ m pre post, ([(1 : ℚ), 2, 3, 2, 1] = pre ++ m :: post) ∧
      (∀ x ∈ [(1 : ℚ), 2, 3, 2, 1], x ≤ m) ∧ m ∉ pre ∧
      ping [(1 : ℚ), 2, 3, 2, 1] = some ((pre ++ post).sum * 250) ∧
      (pre ++ post).length = 4 ∧
      ping [(1 : ℚ), 2, 3, 2, 1] = some (([(1 : ℚ), 2, 3, 2, 1].sum - m) * 250) :=
  ping_aggregate [1, 2, 3, 2, 1] (by decide) (by decide)

end SpeedTest

/-! ## Throughput formatter (`pretty_speed`, lines 419-426)

`while speed >= 1024: speed /= 1024; unit += 1` followed by
`'%0.2f %s' % (speed, units[unit])`.  The unit list has 5 entries and the
index is not capped, so `units[unit]` raises `IndexError` (modelled as
`none`) when the loop ran 5 or more times. -/

def UNITS : List String := ["bps", "Kbps", "Mbps", "Gbps", "Tbps"]

/-- The `'%0.2f'` conversion: two decimal digits (round half up on the exact
rational; the inputs evaluated concretely are exact, so binary-float rounding
differences cannot arise there). -/
def fmt02f (q : ℚ) : String :=
  let n : ℤ := round (q * 100)
  let frac : ℕ := (n % 100).toNat
  toString (n / 100) ++ "." ++ (if frac < 10 then "0" else "") ++ toString frac

/-- The `while speed >= 1024` loop: returns the final value and the number of
divisions performed. -/
def speedLoop (speed : ℚ) : ℚ × ℕ :=
  if h : 1024 ≤ speed then
    ((speedLoop (speed / 1024)).1, (speedLoop (speed / 1024)).2 + 1)
  else
    (speed, 0)
termination_by (⌊speed⌋).toNat
decreasing_by
  have h2 : speed / 1024 ≤ speed - 1023 := by linarith
  have h3 : ⌊speed / 1024⌋ ≤ ⌊speed⌋ - 1023 := by
    calc ⌊speed / 1024⌋ ≤ ⌊speed - 1023⌋ := Int.floor_le_floor h2
    _ = ⌊speed - (1023 : ℤ)⌋ := by norm_num
    _ = ⌊speed⌋ - 1023 := Int.floor_sub_int speed 1023
  have h1 : (1024 : ℤ) ≤ ⌊speed⌋ := Int.le_floor.mpr (by exact_mod_cast h)
  omega

def pretty_speed (speed : ℚ) : Option String :=
  (UNITS.get? (speedLoop speed).2).map (fun u => fmt02f (speedLoop speed).1 ++ " " ++ u)

lemma speedLoop_of_lt (speed : ℚ) (h : speed < 1024) : speedLoop speed = (speed, 0) := by
  unfold speedLoop
  rw [dif_neg (not_le.mpr h)]

lemma speedLoop_of_ge (speed : ℚ) (h : 1024 ≤ speed) :
    speedLoop speed = ((speedLoop (speed / 1024)).1, (speedLoop (speed / 1024)).2 + 1) := by
  conv_lhs => unfold speedLoop
  rw [dif_pos h]

/-- Characterization of the division loop: the final value is the input scaled
by `1024 ^ count`, the final value is below 1024, and the count is exact
(zero, or `1024 ^ count` still fits below the input). -/
lemma speedLoop_spec : ∀ (n : ℕ) (s : ℚ), (⌊s⌋).toNat ≤ n → 0 ≤ s →
    (speedLoop s).1 = s / 1024 ^ (speedLoop s).2 ∧
    (speedLoop s).1 < 1024 ∧
    ((speedLoop s).2 = 0 ∨ 1024 ^ (speedLoop s).2 ≤ s) := by
  intro n
  induction n with
  | zero =>
    intro s hn hs
    -- ⌊s⌋.toNat = 0 and 0 ≤ s force s < 1024, so the loop exits at once
    have hlt : s < 1024 := by
      by_contra hge
      push_neg at hge
      have : (1024 : ℤ) ≤ ⌊s⌋ := Int.le_floor.mpr (by exact_mod_cast hge)
      omega
    rw [speedLoop_of_lt s hlt]
    exact ⟨by simp, hlt, Or.inl rfl⟩
  | succ n ih =>
    intro s hn hs
    by_cases hge : 1024 ≤ s
    · have hrec : (⌊s / 1024⌋).toNat ≤ n := by
        have h2 : s / 1024 ≤ s - 1023 := by linarith
        have h3 : ⌊s / 1024⌋ ≤ ⌊s⌋ - 1023 := by
          calc ⌊s / 1024⌋ ≤ ⌊s - 1023⌋ := Int.floor_le_floor h2
          _ = ⌊s - (1023 : ℤ)⌋ := by norm_num
          _ = ⌊s⌋ - 1023 := Int.floor_sub_int s 1023
        omega
      have hs' : 0 ≤ s / 1024 := by positivity
      obtain ⟨h1, h2, h3⟩ := ih (s / 1024) hrec hs'
      rw [speedLoop_of_ge s hge]
      refine ⟨?_, h2, ?_⟩
      · show (speedLoop (s / 1024)).1 = s / 1024 ^ ((speedLoop (s / 1024)).2 + 1)
        rw [h1, pow_succ, div_div]
        ring_nf
      · right
        rcases h3 with h0 | hpow
        · rw [h0, pow_one]; exact hge
        · rw [pow_succ]
          calc (1024 : ℚ) ^ (speedLoop (s / 1024)).2 * 1024 ≤ (s / 1024) * 1024 := by
                exact mul_le_mul_of_nonneg_right hpow (by norm_num)
          _ = s := by field_simp
    · push_neg at hge
      rw [speedLoop_of_lt s hge]
      exact ⟨by simp, hge, Or.inl rfl⟩

/-- Shared evaluation: values below 1024^5 stay within the unit list. -/
lemma pretty_speed_total_below (s : ℚ) (hs : 0 ≤ s) (hlt : s < 1024 ^ 5) :
    (speedLoop s).2 ≤ 4 ∧ ∃ out, pretty_speed s = some out := by
  obtain ⟨-, -, h3⟩ := speedLoop_spec (⌊s⌋).toNat s le_rfl hs
  have hle : (speedLoop s).2 ≤ 4 := by
    rcases h3 with h0 | hpow
    · omega
    · by_contra hgt
      push_neg at hgt
      have : (1024 : ℚ) ^ 5 ≤ 1024 ^ (speedLoop s).2 :=
        pow_le_pow_right₀ (by norm_num) (by omega)
      linarith
  refine ⟨hle, ?_⟩
  unfold pretty_speed
  cases hga : UNITS.get? (speedLoop s).2 with
  | none =>
    exfalso
    have hlen := List.get?_eq_none.mp hga
    simp only [UNITS, List.length_cons, List.length_nil] at hlen
    omega
  | some u => exact ⟨fmt02f (speedLoop s).1 ++ " " ++ u, rfl⟩

/-- Shared evaluation: values of 1024^5 and above index past the unit list. -/
lemma pretty_speed_none_above (s : ℚ) (hs : 0 ≤ s) (hge : 1024 ^ 5 ≤ s) :
    pretty_speed s = none := by
  obtain ⟨h1, h2, -⟩ := speedLoop_spec (⌊s⌋).toNat s le_rfl hs
  have hbig : 5 ≤ (speedLoop s).2 := by
    by_contra hsmall
    push_neg at hsmall
    have hp : (1024 : ℚ) ^ (speedLoop s).2 ≤ 1024 ^ 4 :=
      pow_le_pow_right₀ (by norm_num) (by omega)
    have hmono : s / 1024 ^ 4 ≤ s / 1024 ^ (speedLoop s).2 :=
      div_le_div_of_nonneg_left hs (by positivity) hp
    have h4 : (1024 : ℚ) ≤ s / 1024 ^ 4 := by
      rw [le_div_iff₀ (by norm_num)]
      calc (1024 : ℚ) * 1024 ^ 4 = 1024 ^ 5 := by ring
      _ ≤ s := hge
    rw [h1] at h2
    linarith
  unfold pretty_speed
  have hnone : UNITS.get? (speedLoop s).2 = none := by
    apply List.get?_eq_none.mpr
    simpa [UNITS] using hbig
  rw [hnone]
  rfl

/-- C8: `pretty_speed 0 = "0.00 bps"`, `pretty_speed 1536 = "1.50 Kbps"`,
`pretty_speed (1024*1024) = "1.00 Mbps"`; the loop divides by 1024 while the
value is at least 1024, the unit is chosen by the division count, and the
value is formatted with two decimal digits. -/
theorem pretty_speed_examples :
    pretty_speed 0 = some "0.00 bps" ∧
    pretty_speed 1536 = some "1.50 Kbps" ∧
    pretty_speed (1024 * 1024) = some "1.00 Mbps" ∧
    (∀ s : ℚ, 0 ≤ s →
      (speedLoop s).1 = s / 1024 ^ (speedLoop s).2 ∧
      (speedLoop s).1 < 1024 ∧
      ((speedLoop s).2 = 0 ∨ 1024 ^ (speedLoop s).2 ≤ s)) := by
  have h0 : speedLoop 0 = (0, 0) := speedLoop_of_lt 0 (by norm_num)
  have h1536 : speedLoop 1536 = (3 / 2, 1) := by
    rw [speedLoop_of_ge 1536 (by norm_num),
      show (1536 : ℚ) / 1024 = 3 / 2 by norm_num,
      speedLoop_of_lt (3 / 2) (by norm_num)]
  have hm : speedLoop (1024 * 1024) = (1, 2) := by
    rw [speedLoop_of_ge (1024 * 1024) (by norm_num),
      show (1024 : ℚ) * 1024 / 1024 = 1024 by norm_num,
      speedLoop_of_ge 1024 (by norm_num),
      show (1024 : ℚ) / 1024 = 1 by norm_num,
      speedLoop_of_lt 1 (by norm_num)]
  have hf0 : fmt02f 0 = "0.00" := by
    unfold fmt02f
    rw [show (0 : ℚ) * 100 = ((0 : ℤ) : ℚ) by norm_num, round_intCast]
    decide
  have hf15 : fmt02f (3 / 2) = "1.50" := by
    unfold fmt02f
    rw [show (3 / 2 : ℚ) * 100 = ((150 : ℤ) : ℚ) by norm_num, round_intCast]
    decide
  have hf1 : fmt02f 1 = "1.00" := by
    unfold fmt02f
    rw [show (1 : ℚ) * 100 = ((100 : ℤ) : ℚ) by norm_num, round_intCast]
    decide
  refine ⟨?_, ?_, ?_, fun s hs => speedLoop_spec (⌊s⌋).toNat s le_rfl hs⟩
  · unfold pretty_speed
    rw [h0]
    show some (fmt02f 0 ++ " " ++ "bps") = some "0.00 bps"
    rw [hf0]
    decide
  · unfold pretty_speed
    rw [h1536]
    show some (fmt02f (3 / 2) ++ " " ++ "Kbps") = some "1.50 Kbps"
    rw [hf15]
    decide
  · unfold pretty_speed
    rw [hm]
    show some (fmt02f 1 ++ " " ++ "Mbps") = some "1.00 Mbps"
    rw [hf1]
    decide

/-- Witness for C8's universally quantified conjunct, at input 2048. -/
theorem pretty_speed_examples_witness :
    (0 : ℚ) ≤ 2048 ∧
    ((speedLoop 2048).1 = 2048 / 1024 ^ (speedLoop 2048).2 ∧
      (speedLoop 2048).1 < 1024 ∧
      ((speedLoop 2048).2 = 0 ∨ (1024 : ℚ) ^ (speedLoop 2048).2 ≤ 2048)) :=
  ⟨by norm_num, pretty_speed_examples.2.2.2 2048 (by norm_num)⟩

/-- C9 counterexample: at input `1024 ^ 5` the formatter does not produce a
Tbps result; the unit index runs past the unit list (`IndexError`). -/
theorem pretty_speed_overflow_cex : pretty_speed ((1024 : ℚ) ^ 5) = none := by
  have h : speedLoop ((1024 : ℚ) ^ 5) = (1, 5) := by
    rw [speedLoop_of_ge ((1024 : ℚ) ^ 5) (by norm_num),
      show (1024 : ℚ) ^ 5 / 1024 = 1024 ^ 4 by ring,
      speedLoop_of_ge ((1024 : ℚ) ^ 4) (by norm_num),
      show (1024 : ℚ) ^ 4 / 1024 = 1024 ^ 3 by ring,
      speedLoop_of_ge ((1024 : ℚ) ^ 3) (by norm_num),
      show (1024 : ℚ) ^ 3 / 1024 = 1024 ^ 2 by ring,
      speedLoop_of_ge ((1024 : ℚ) ^ 2) (by norm_num),
      show (1024 : ℚ) ^ 2 / 1024 = 1024 by ring,
      speedLoop_of_ge 1024 (by norm_num),
      show (1024 : ℚ) / 1024 = 1 by norm_num,
      speedLoop_of_lt 1 (by norm_num)]
  unfold pretty_speed
  rw [h]
  rfl

/-- C9 (amended): `pretty_speed` is total with unit index at most Tbps only
for non-negative inputs below `1024 ^ 5`; inputs of `1024 ^ 5` or more drive
the unit index past the end of the unit list and fail (no Tbps output). -/
theorem pretty_speed_totality (s : ℚ) (hs : 0 ≤ s) :
    (s < 1024 ^ 5 → (speedLoop s).2 ≤ 4 ∧ ∃ out, pretty_speed s = some out) ∧
    (1024 ^ 5 ≤ s → pretty_speed s = none) :=
  ⟨fun hlt => pretty_speed_total_below s hs hlt,
   fun hge => pretty_speed_none_above s hs hge⟩

/-- Witness for C9's amended theorem at input 7. -/
theorem pretty_speed_totality_witness :
    (0 : ℚ) ≤ 7 ∧
    (((7 : ℚ) < 1024 ^ 5 → (speedLoop 7).2 ≤ 4 ∧ ∃ out, pretty_speed 7 = some out) ∧
      ((1024 : ℚ) ^ 5 ≤ 7 → pretty_speed 7 = none)) :=
  ⟨by norm_num, pretty_speed_totality 7 (by norm_num)⟩

namespace SpeedTest

/-! ## Transfer engine (`SpeedTest.download`, lines 90-117)

Threads and connections are abstracted: `downloaded current_file run` stands
for `len(response.read())` of worker `run` fetching `current_file`.  The
accumulation order (outer loop over the fixed file list, inner join over the
`runs` workers) and the final `total_downloaded * 8000 / total_ms` are
embedded verbatim. -/

def DOWNLOAD_FILES : List String :=
  ["/speedtest/random350x350.jpg",
   "/speedtest/random500x500.jpg",
   "/speedtest/random1500x1500.jpg"]

def download (runs : ℕ) (downloaded : String → ℕ → ℕ) (total_ms : ℚ) : ℚ :=
  let total_downloaded :=
    DOWNLOAD_FILES.foldl
      (fun acc current_file =>
        (List.range runs).foldl (fun a run => a + downloaded current_file run) acc)
      0
  (total_downloaded : ℚ) * 8000 / total_ms

lemma foldl_add_map (l : List ℕ) (g : ℕ → ℕ) :
    ∀ a : ℕ, l.foldl (fun acc r => acc + g r) a = a + (l.map g).sum := by
  induction l with
  | nil => intro a; simp
  | cons x xs ih =>
    intro a
    simp only [List.foldl_cons, List.map_cons, List.sum_cons]
    rw [ih (a + g x)]
    omega

lemma foldl_add_map_str (l : List String) (g : String → ℕ) :
    ∀ a : ℕ, l.foldl (fun acc f => acc + g f) a = a + (l.map g).sum := by
  induction l with
  | nil => intro a; simp
  | cons x xs ih =>
    intro a
    simp only [List.foldl_cons, List.map_cons, List.sum_cons]
    rw [ih (a + g x)]
    omega

lemma download_total (runs : ℕ) (downloaded : String → ℕ → ℕ) :
    DOWNLOAD_FILES.foldl
      (fun acc current_file =>
        (List.range runs).foldl (fun a run => a + downloaded current_file run) acc)
      0
    = (DOWNLOAD_FILES.map
        (fun f => ((List.range runs).map (downloaded f)).sum)).sum := by
  have hstep : ∀ (acc : ℕ) (f : String),
      (List.range runs).foldl (fun a run => a + downloaded f run) acc
        = acc + ((List.range runs).map (downloaded f)).sum := by
    intro acc f
    exact foldl_add_map (List.range runs) (downloaded f) acc
  have : DOWNLOAD_FILES.foldl
      (fun acc current_file =>
        (List.range runs).foldl (fun a run => a + downloaded current_file run) acc) 0
    = DOWNLOAD_FILES.foldl
      (fun acc f => acc + ((List.range runs).map (downloaded f)).sum) 0 := by
    congr 1
    funext acc f
    exact hstep acc f
  rw [this,
    foldl_add_map_str DOWNLOAD_FILES
      (fun f => ((List.range runs).map (downloaded f)).sum) 0]
  omega

/-- C5: download returns `totalBytes * 8000 / elapsedMilliseconds`, where the
byte total is strictly additive across the 3 fixed targets and all `runs`
workers; for uniform per-item payloads it equals the sum over items of
per-item bytes times `runs`. -/
theorem download_additive (runs : ℕ) (downloaded : String → ℕ → ℕ)
    (total_ms : ℚ) (b : String → ℕ)
    (huniform : ∀ f r, downloaded f r = b f) :
    download runs downloaded total_ms =
      ((DOWNLOAD_FILES.map
          (fun f => ((List.range runs).map (downloaded f)).sum)).sum : ℚ)
        * 8000 / total_ms ∧
    download runs downloaded total_ms =
      (((DOWNLOAD_FILES.map b).sum * runs : ℕ) : ℚ) * 8000 / total_ms := by
  constructor
  · unfold download
    rw [download_total]
  · unfold download
    rw [download_total]
    have hitem : ∀ f, ((List.range runs).map (downloaded f)).sum = b f * runs := by
      intro f
      have : (List.range runs).map (downloaded f) = List.replicate runs (b f) := by
        apply List.eq_replicate_iff.mpr
        refine ⟨by simp, ?_⟩
        intro x hx
        obtain ⟨r, -, rfl⟩ := List.mem_map.mp hx
        exact huniform f r
      rw [this, List.sum_replicate, smul_eq_mul, Nat.mul_comm]
    have : DOWNLOAD_FILES.map (fun f => ((List.range runs).map (downloaded f)).sum)
        = DOWNLOAD_FILES.map (fun f => b f * runs) := by
      apply List.map_congr_left
      intro f _
      exact hitem f
    rw [this]
    have : (DOWNLOAD_FILES.map (fun f => b f * runs)).sum
        = (DOWNLOAD_FILES.map b).sum * runs := by
      simp [DOWNLOAD_FILES, Nat.add_mul]
    rw [this]

/-- Witness for C5: 2 runs, every request yielding 100 bytes, 4 ms elapsed. -/
theorem download_additive_witness :
    download 2 (fun _ _ => 100) 4 =
      (((DOWNLOAD_FILES.map
          (fun f => ((List.range 2).map ((fun (_ : String) (_ : ℕ) => 100) f)).sum)).sum : ℕ) : ℚ)
        * 8000 / 4 ∧
    download 2 (fun _ _ => 100) 4 =
      (((DOWNLOAD_FILES.map (fun _ => 100)).sum * 2 : ℕ) : ℚ) * 8000 / 4 :=
  download_additive 2 (fun _ _ => 100) 4 (fun _ => 100) (fun _ _ => rfl)

end SpeedTest

namespace SpeedTest

/-! ## Transfer engine (`SpeedTest.uploadthread` lines 119-130 and
`SpeedTest.upload` lines 132-166)

`uploadthread` posts `data` and records `int(reply.split('=')[1])` — the byte
count echoed by the server, not anything derived from `data`.  A missing `=`
field (IndexError) or a non-integer field (ValueError) is modelled as `none`.
`upload` generates one payload per fixed size, shares it across the `runs`
workers, and accumulates `thread.uploaded` over every item and worker. -/

def UPLOAD_FILES : List ℕ := [132884, 493638]

/-- Split a character list on a separator, as Python `str.split` does. -/
def splitOnChar (sep : Char) : List Char → List (List Char)
  | [] => [[]]
  | c :: cs =>
    let rest := splitOnChar sep cs
    if c = sep then
      [] :: rest
    else
      match rest with
      | [] => [[c]]
      | r :: rs => (c :: r) :: rs

/-- Parse a decimal natural number from characters; `none` on empty or
non-digit input (Python `int(...)` raising `ValueError`). -/
def parseNatChars : List Char → Option ℕ
  | [] => none
  | cs =>
    cs.foldl
      (fun acc c =>
        match acc with
        | none => none
        | some n => if c.isDigit then some (n * 10 + (c.toNat - '0'.toNat)) else none)
      (some 0)

/-- `int(reply.split('=')[1])`: second field of the reply split on `=`. -/
def parse_echoed (reply : String) : Option ℕ :=
  match (splitOnChar '=' reply.data).get? 1 with
  | none => none
  | some cs => parseNatChars cs

/-- The value a single upload worker records: the echoed count parsed from
the server reply; the posted `data` plays no part in it. -/
def uploadthread (data : String) (reply : String) : Option ℕ :=
  parse_echoed reply

/-- Byte total accumulated by `upload` across all items and workers, given
the payload for each item and the reply seen by each (item, worker) pair;
`none` models a worker raising while parsing its reply. -/
def upload_total (runs : ℕ) (post_data : ℕ → String) (reply : ℕ → ℕ → String) :
    Option ℕ :=
  (List.range UPLOAD_FILES.length).foldl
    (fun acc i =>
      (List.range runs).foldl
        (fun a run =>
          match a with
          | none => none
          | some t =>
            match uploadthread (post_data i) (reply i run) with
            | none => none
            | some u => some (t + u))
        acc)
    (some 0)

/-- `total_uploaded * 8000 / total_ms`. -/
def upload (runs : ℕ) (post_data : ℕ → String) (reply : ℕ → ℕ → String)
    (total_ms : ℚ) : Option ℚ :=
  match upload_total runs post_data reply with
  | none => none
  | some t => some ((t : ℚ) * 8000 / total_ms)

lemma foldl_echo_add (l : List ℕ) (g : ℕ → Option ℕ) (e : ℕ → ℕ)
    (hall : ∀ x ∈ l, g x = some (e x)) :
    ∀ t : ℕ,
      l.foldl
        (fun a run =>
          match a with
          | none => none
          | some t2 =>
            match g run with
            | none => none
            | some u => some (t2 + u))
        (some t)
      = some (t + (l.map e).sum) := by
  induction l with
  | nil => intro t; simp
  | cons x xs ih =>
    intro t
    have hx : g x = some (e x) := hall x (by simp)
    simp only [List.foldl_cons, hx]
    rw [ih (fun y hy => hall y (by simp [hy])) (t + e x)]
    simp only [List.map_cons, List.sum_cons]
    congr 1
    omega

/-- C6: the upload total accumulates, for every worker and every item, the
byte count echoed back by the server reply, and it does not depend on the
local payloads at all: replacing every payload leaves the total unchanged. -/
theorem upload_uses_echoed (runs : ℕ) (post_data : ℕ → String)
    (reply : ℕ → ℕ → String) (e : ℕ → ℕ → ℕ) (total_ms : ℚ)
    (hecho : ∀ i run, parse_echoed (reply i run) = some (e i run)) :
    upload_total runs post_data reply =
      some (((List.range UPLOAD_FILES.length).map
        (fun i => ((List.range runs).map (e i)).sum)).sum) ∧
    (∀ post_data2, upload_total runs post_data2 reply
        = upload_total runs post_data reply) ∧
    upload runs post_data reply total_ms =
      some (((((List.range UPLOAD_FILES.length).map
        (fun i => ((List.range runs).map (e i)).sum)).sum : ℕ) : ℚ)
          * 8000 / total_ms) := by
  have htot : upload_total runs post_data reply =
      some (((List.range UPLOAD_FILES.length).map
        (fun i => ((List.range runs).map (e i)).sum)).sum) := by
    unfold upload_total
    rw [show List.range UPLOAD_FILES.length = [0, 1] by rfl]
    simp only [List.foldl_cons, List.foldl_nil]
    rw [foldl_echo_add (List.range runs)
        (fun run => uploadthread (post_data 0) (reply 0 run)) (e 0)
        (fun run _ => hecho 0 run) 0]
    rw [foldl_echo_add (List.range runs)
        (fun run => uploadthread (post_data 1) (reply 1 run)) (e 1)
        (fun run _ => hecho 1 run) (0 + ((List.range runs).map (e 0)).sum)]
    simp
  refine ⟨htot, ?_, ?_⟩
  · intro post_data2
    rfl
  · unfold upload
    rw [htot]

/-- Witness for C6: one worker, every reply echoing 5 bytes while the local
payload is the 3-byte string `XXX` — the echoed count drives the total. -/
theorem upload_uses_echoed_witness :
    upload_total 1 (fun _ => "XXX") (fun _ _ => "content0=5") =
      some (((List.range UPLOAD_FILES.length).map
        (fun i => ((List.range 1).map ((fun (_ _ : ℕ) => 5) i)).sum)).sum) ∧
    (∀ post_data2, upload_total 1 post_data2 (fun _ _ => "content0=5")
        = upload_total 1 (fun _ => "XXX") (fun _ _ => "content0=5")) ∧
    upload 1 (fun _ => "XXX") (fun _ _ => "content0=5") 2 =
      some ((((((List.range UPLOAD_FILES.length).map
        (fun i => ((List.range 1).map ((fun (_ _ : ℕ) => 5) i)).sum)).sum : ℕ)) : ℚ)
          * 8000 / 2) :=
  upload_uses_echoed 1 (fun _ => "XXX") (fun _ _ => "content0=5")
    (fun _ _ => 5) 2
    (fun _ _ => by show parse_echoed "content0=5" = some 5; decide)

end SpeedTest

namespace SpeedTest

/-! ## Distance ranking (`SpeedTest.calc_distance`, lines 195-204)

`location` and `server` are `(text, lat, lon)` triples (the code's regex
tuples, with the `float(...)` conversions of fields 1 and 2 abstracted to
real-valued coordinates); the code computes
`sqrt(pow(s_lat - my_lat, 2) + pow(s_lon - my_lon, 2))` — deliberately not
a haversine great-circle distance. -/
noncomputable def calc_distance (location server : String × ℝ × ℝ) : ℝ :=
  let my_lat := location.2.1
  let my_lon := location.2.2
  let s_lat := server.2.1
  let s_lon := server.2.2
  Real.sqrt ((s_lat - my_lat) ^ 2 + (s_lon - my_lon) ^ 2)

/-- C7: for every client location and every server candidate with numeric
coordinates, `calc_distance` is exactly the planar Euclidean distance between
the two raw (latitude, longitude) points of the Euclidean plane (the distance
of `EuclideanSpace ℝ (Fin 2)`, not any other metric). -/
theorem calc_distance_euclidean (ip url : String) (my_lat my_lon s_lat s_lon : ℝ) :
    calc_distance (ip, my_lat, my_lon) (url, s_lat, s_lon) =
      dist ((WithLp.equiv 2 ((_ : Fin 2) → ℝ)).symm ![s_lat, s_lon])
        ((WithLp.equiv 2 ((_ : Fin 2) → ℝ)).symm ![my_lat, my_lon]) := by
  have h := EuclideanSpace.dist_eq
    ((WithLp.equiv 2 ((_ : Fin 2) → ℝ)).symm ![s_lat, s_lon])
    ((WithLp.equiv 2 ((_ : Fin 2) → ℝ)).symm ![my_lat, my_lon])
  refine Eq.trans ?_ h.symm
  unfold calc_distance
  simp [Fin.sum_univ_succ, Real.dist_eq, sq_abs]

end SpeedTest

namespace SpeedTest

/-! ## Server selection (`SpeedTest.chooseserver`, lines 206-258)

The probing phase (lines 244-258): starting from
`best_server = (999999, '')`, walk `sorted_server_list[:10]`; for each entry
whose URL matches `re.search(r'http://([^/]+)/speedtest/upload\.php', url)`
extract the host and probe it, keeping the strictly smaller latency; raise
(`none`) when `best_server[1]` is still empty at the end.  The latency oracle
`pingOf` stands for `self.ping(server_host)`. -/

/-- Drop an exact literal from the front of the input, or fail. -/
def dropLit : List Char → List Char → Option (List Char)
  | [], cs => some cs
  | _ :: _, [] => none
  | p :: ps, c :: cs => if p = c then dropLit ps cs else none

/-- Try the regex `http://([^/]+)/speedtest/upload\.php` anchored at the
start of the input: the literal scheme, a non-empty greedy run of non-slash
characters (the captured host), then the literal path.  The greedy `[^/]+`
followed by the `/`-initial literal makes the match deterministic. -/
def upload_host_at (cs : List Char) : Option (List Char) :=
  match dropLit "http://".data cs with
  | none => none
  | some r =>
    if (r.takeWhile (fun c => c ≠ '/')).isEmpty then none
    else
      match dropLit "/speedtest/upload.php".data (r.dropWhile (fun c => c ≠ '/')) with
      | none => none
      | some _ => some (r.takeWhile (fun c => c ≠ '/'))

/-- `re.search`: try the pattern at every start position, leftmost match
wins. -/
def search_upload_host : List Char → Option (List Char)
  | [] => none
  | c :: cs =>
    match upload_host_at (c :: cs) with
    | some host => some host
    | none => search_upload_host cs

/-- The host captured from a server's upload-endpoint URL, when the URL
matches the expected shape. -/
def extract_upload_host (url : String) : Option String :=
  (search_upload_host url.data).map List.asString

/-- One iteration of the probing loop over a URL-matching candidate:
`latency = self.ping(server_host); if latency < best_server[0]: ...`. -/
def probeStep (pingOf : String → ℚ) (best : ℚ × String) (server_host : String) :
    ℚ × String :=
  let latency := pingOf server_host
  if latency < best.1 then (latency, server_host) else best

/-- The probing loop over the candidate URLs: non-matching URLs are skipped
(`continue`), matching ones are probed. -/
def probeLoop (pingOf : String → ℚ) : List String → ℚ × String → ℚ × String
  | [], best => best
  | url :: rest, best =>
    match extract_upload_host url with
    | none => probeLoop pingOf rest best
    | some server_host => probeLoop pingOf rest (probeStep pingOf best server_host)

/-- The hosts that get probed: those extracted from the first 10 entries of
the distance-sorted list. -/
def probed_hosts (sorted_server_list : List String) : List String :=
  (sorted_server_list.take 10).filterMap extract_upload_host

/-- Lines 244-258 of `chooseserver`: the probing phase over the sorted list,
`none` modelling `raise Exception('Cannot find a test server')`. -/
def chooseserver_probe (pingOf : String → ℚ) (sorted_server_list : List String) :
    Option String :=
  let best_server := probeLoop pingOf (sorted_server_list.take 10) (999999, "")
  if best_server.2 = "" then none else some best_server.2

lemma probeStep_eq (pingOf : String → ℚ) (best : ℚ × String) (h : String) :
    probeStep pingOf best h = if pingOf h < best.1 then (pingOf h, h) else best := rfl

lemma probeLoop_eq_foldl (pingOf : String → ℚ) :
    ∀ (l : List String) (best : ℚ × String),
      probeLoop pingOf l best
        = (l.filterMap extract_upload_host).foldl (probeStep pingOf) best := by
  intro l
  induction l with
  | nil => intro best; rfl
  | cons url rest ih =>
    intro best
    cases hm : extract_upload_host url with
    | none =>
      have hred : probeLoop pingOf (url :: rest) best = probeLoop pingOf rest best := by
        show (match extract_upload_host url with
          | none => probeLoop pingOf rest best
          | some server_host =>
              probeLoop pingOf rest (probeStep pingOf best server_host))
          = probeLoop pingOf rest best
        rw [hm]
      rw [hred, ih best, List.filterMap_cons, hm]
    | some host =>
      have hred : probeLoop pingOf (url :: rest) best
          = probeLoop pingOf rest (probeStep pingOf best host) := by
        show (match extract_upload_host url with
          | none => probeLoop pingOf rest best
          | some server_host =>
              probeLoop pingOf rest (probeStep pingOf best server_host))
          = probeLoop pingOf rest (probeStep pingOf best host)
        rw [hm]
      rw [hred, ih (probeStep pingOf best host), List.filterMap_cons, hm,
        List.foldl_cons]

lemma probe_foldl_fst_le (pingOf : String → ℚ) :
    ∀ (l : List String) (best : ℚ × String),
      (l.foldl (probeStep pingOf) best).1 ≤ best.1 := by
  intro l
  induction l with
  | nil => intro best; exact le_refl _
  | cons h t ih =>
    intro best
    rw [List.foldl_cons]
    refine le_trans (ih (probeStep pingOf best h)) ?_
    rw [probeStep_eq]
    split
    · exact le_of_lt (by assumption)
    · exact le_refl _

lemma probe_foldl_fst_le_ping (pingOf : String → ℚ) :
    ∀ (l : List String) (best : ℚ × String), ∀ h ∈ l,
      (l.foldl (probeStep pingOf) best).1 ≤ pingOf h := by
  intro l
  induction l with
  | nil => intro best h hh; simp at hh
  | cons x t ih =>
    intro best h hh
    rw [List.foldl_cons]
    rcases List.mem_cons.mp hh with rfl | hmem
    · refine le_trans (probe_foldl_fst_le pingOf t (probeStep pingOf best h)) ?_
      rw [probeStep_eq]
      split
      · exact le_refl _
      · exact le_of_not_lt (by assumption)
    · exact ih (probeStep pingOf best x) h hmem

lemma probe_foldl_no_update (pingOf : String → ℚ) :
    ∀ (l : List String) (best : ℚ × String),
      (∀ h ∈ l, best.1 ≤ pingOf h) →
      l.foldl (probeStep pingOf) best = best := by
  intro l
  induction l with
  | nil => intro best _; rfl
  | cons x t ih =>
    intro best hall
    rw [List.foldl_cons]
    have hx : best.1 ≤ pingOf x := hall x (by simp)
    have hstep : probeStep pingOf best x = best := by
      rw [probeStep_eq, if_neg (not_lt.mpr hx)]
    rw [hstep]
    exact ih best (fun h hh => hall h (by simp [hh]))

lemma probe_foldl_first_min (pingOf : String → ℚ) :
    ∀ (pre : List String) (h : String) (post : List String) (best : ℚ × String),
      pingOf h < best.1 →
      (∀ x ∈ pre, pingOf h < pingOf x) →
      (∀ x ∈ post, pingOf h ≤ pingOf x) →
      (pre ++ h :: post).foldl (probeStep pingOf) best = (pingOf h, h) := by
  intro pre
  induction pre with
  | nil =>
    intro h post best hlt hpre hpost
    simp only [List.nil_append, List.foldl_cons]
    have hstep : probeStep pingOf best h = (pingOf h, h) := by
      rw [probeStep_eq, if_pos hlt]
    rw [hstep]
    exact probe_foldl_no_update pingOf post (pingOf h, h) hpost
  | cons x pre ih =>
    intro h post best hlt hpre hpost
    simp only [List.cons_append, List.foldl_cons]
    have hxh : pingOf h < pingOf x := hpre x (by simp)
    have hx1 : pingOf h < (probeStep pingOf best x).1 := by
      rw [probeStep_eq]
      split
      · exact hxh
      · exact hlt
    exact ih h post (probeStep pingOf best x) hx1
      (fun y hy => hpre y (by simp [hy])) hpost

lemma probe_foldl_cases (pingOf : String → ℚ) :
    ∀ (l : List String) (best : ℚ × String),
      l.foldl (probeStep pingOf) best = best ∨
      (∃ pre h post, l = pre ++ h :: post ∧
        l.foldl (probeStep pingOf) best = (pingOf h, h) ∧
        pingOf h < best.1 ∧
        (∀ x ∈ pre, pingOf h < pingOf x) ∧
        (∀ x ∈ post, pingOf h ≤ pingOf x)) := by
  intro l
  induction l with
  | nil => intro best; left; rfl
  | cons x t ih =>
    intro best
    rw [List.foldl_cons]
    by_cases hx : pingOf x < best.1
    · have hstep : probeStep pingOf best x = (pingOf x, x) := by
        rw [probeStep_eq, if_pos hx]
      rw [hstep]
      rcases ih (pingOf x, x) with heq | ⟨pre, h, post, hdecomp, hval, hlt, hpre, hpost⟩
      · right
        refine ⟨[], x, t, by simp, by rw [heq], hx, by simp, ?_⟩
        intro y hy
        by_contra hyx
        push_neg at hyx
        have := probe_foldl_fst_le_ping pingOf t (pingOf x, x) y hy
        rw [heq] at this
        exact absurd this (not_le.mpr hyx)
      · right
        refine ⟨x :: pre, h, post, by rw [hdecomp, List.cons_append], hval, ?_, ?_, hpost⟩
        · exact lt_trans hlt hx
        · intro y hy
          rcases List.mem_cons.mp hy with rfl | hmem
          · exact hlt
          · exact hpre y hmem
    · have hstep : probeStep pingOf best x = best := by
        rw [probeStep_eq, if_neg hx]
      rw [hstep]
      rcases ih best with heq | ⟨pre, h, post, hdecomp, hval, hlt, hpre, hpost⟩
      · left; exact heq
      · right
        refine ⟨x :: pre, h, post, by rw [hdecomp, List.cons_append], hval, hlt, ?_, hpost⟩
        intro y hy
        rcases List.mem_cons.mp hy with rfl | hmem
        · exact lt_of_lt_of_le hlt (not_lt.mp hx)
        · exact hpre y hmem

lemma upload_host_at_ne_nil (cs host : List Char)
    (h : upload_host_at cs = some host) : host ≠ [] := by
  unfold upload_host_at at h
  split at h
  · cases h
  · split at h
    · cases h
    · split at h
      · cases h
      · rename_i hdropeq hnotempty scrut rest2 heq2
        injection h with h2
        intro habs
        apply hnotempty
        rw [h2, habs]
        rfl

lemma search_upload_host_ne_nil :
    ∀ (cs res : List Char), search_upload_host cs = some res → res ≠ [] := by
  intro cs
  induction cs with
  | nil => intro res h; simp [search_upload_host] at h
  | cons c rest ih =>
    intro res h
    unfold search_upload_host at h
    split at h
    · rename_i host hat
      injection h with h2
      rw [← h2]
      exact upload_host_at_ne_nil (c :: rest) host hat
    · exact ih res h

lemma extract_upload_host_ne_empty (url host : String)
    (h : extract_upload_host url = some host) : host ≠ "" := by
  unfold extract_upload_host at h
  obtain ⟨cs, hcs, rfl⟩ := Option.map_eq_some'.mp h
  have hne : cs ≠ [] := search_upload_host_ne_nil url.data cs hcs
  intro habs
  apply hne
  have hdata := congrArg String.data habs
  simpa [List.asString] using hdata

lemma probed_hosts_ne_empty (l : List String) :
    ∀ h ∈ probed_hosts l, h ≠ "" := by
  intro h hh
  unfold probed_hosts at hh
  obtain ⟨url, -, hx⟩ := List.mem_filterMap.mp hh
  exact extract_upload_host_ne_empty url h hx

/-- Full characterization of the probing phase: failure happens exactly when
no probed host beats the 999999 sentinel; on success the winner is the first
probed host attaining the minimum probed latency. -/
lemma chooseserver_probe_char (pingOf : String → ℚ) (l : List String) :
    (chooseserver_probe pingOf l = none ↔
      ∀ h ∈ probed_hosts l, 999999 ≤ pingOf h) ∧
    (∀ host, chooseserver_probe pingOf l = some host →
      host ∈ probed_hosts l ∧ pingOf host < 999999 ∧
      (∀ g ∈ probed_hosts l, pingOf host ≤ pingOf g) ∧
      ∃ pre post, probed_hosts l = pre ++ host :: post ∧
        (∀ g ∈ pre, pingOf host < pingOf g)) ∧
    (∀ pre host post, probed_hosts l = pre ++ host :: post →
      pingOf host < 999999 →
      (∀ x ∈ pre, pingOf host < pingOf x) →
      (∀ x ∈ post, pingOf host ≤ pingOf x) →
      chooseserver_probe pingOf l = some host) := by
  have hrw : chooseserver_probe pingOf l
      = if ((probed_hosts l).foldl (probeStep pingOf) (999999, "")).2 = ""
        then none
        else some ((probed_hosts l).foldl (probeStep pingOf) (999999, "")).2 := by
    unfold chooseserver_probe probed_hosts
    rw [probeLoop_eq_foldl]
  have hpos : ∀ pre host post, probed_hosts l = pre ++ host :: post →
      pingOf host < 999999 →
      (∀ x ∈ pre, pingOf host < pingOf x) →
      (∀ x ∈ post, pingOf host ≤ pingOf x) →
      chooseserver_probe pingOf l = some host := by
    intro pre host post hdec hlt hpre hpost
    have hne : host ≠ "" := probed_hosts_ne_empty l host (by rw [hdec]; simp)
    have hfold := probe_foldl_first_min pingOf pre host post (999999, "") hlt hpre hpost
    rw [hrw, hdec, hfold]
    simp [hne]
  have hle := probe_foldl_fst_le_ping pingOf (probed_hosts l) (999999, "")
  rcases probe_foldl_cases pingOf (probed_hosts l) (999999, "")
    with hinit | ⟨pre, h, post, hdec, hval, hlt, hpre, hpost⟩
  · have hnone : chooseserver_probe pingOf l = none := by
      rw [hrw, hinit]
      rfl
    have hall : ∀ g ∈ probed_hosts l, 999999 ≤ pingOf g := by
      intro g hg
      have hx := hle g hg
      rw [hinit] at hx
      exact hx
    refine ⟨⟨fun _ => hall, fun _ => hnone⟩, ?_, hpos⟩
    intro host hsome
    rw [hnone] at hsome
    cases hsome
  · have hne : h ≠ "" := probed_hosts_ne_empty l h (by rw [hdec]; simp)
    have hsome : chooseserver_probe pingOf l = some h := by
      rw [hrw, hval]
      simp [hne]
    have hmin : ∀ g ∈ probed_hosts l, pingOf h ≤ pingOf g := by
      intro g hg
      have hx := hle g hg
      rw [hval] at hx
      exact hx
    refine ⟨⟨?_, ?_⟩, ?_, hpos⟩
    · intro hcontra
      rw [hsome] at hcontra
      cases hcontra
    · intro hall
      exfalso
      have hmem : h ∈ probed_hosts l := by rw [hdec]; simp
      exact absurd (hall h hmem) (not_le.mpr hlt)
    · intro host h2
      rw [hsome] at h2
      injection h2 with h3
      subst h3
      exact ⟨by rw [hdec]; simp, hlt, hmin, pre, post, hdec, hpre⟩

/-- C2 counterexample: one candidate matches the URL shape and is probed
(at the sentinel latency 999999), yet selection still fails — so failure is
not equivalent to "no candidate matched and was probed". -/
theorem chooseserver_sentinel_cex :
    probed_hosts ["http://a.example/speedtest/upload.php"] = ["a.example"] ∧
    chooseserver_probe (fun _ => 999999)
      ["http://a.example/speedtest/upload.php"] = none := by
  decide

/-- C2 (amended): selection returns the hostname of the first probed
candidate achieving the minimum probed latency (strict less-than, first
minimum wins on ties) provided that minimum is strictly below the sentinel
999999, and it fails exactly when no probed candidate's latency is strictly
below 999999 — in particular when no candidate matched the URL shape and was
probed (e.g. an empty candidate list). -/
theorem chooseserver_selects_first_min (pingOf : String → ℚ) (l : List String) :
    (chooseserver_probe pingOf l = none ↔
      ∀ h ∈ probed_hosts l, 999999 ≤ pingOf h) ∧
    (∀ host, chooseserver_probe pingOf l = some host →
      host ∈ probed_hosts l ∧ pingOf host < 999999 ∧
      (∀ g ∈ probed_hosts l, pingOf host ≤ pingOf g) ∧
      ∃ pre post, probed_hosts l = pre ++ host :: post ∧
        (∀ g ∈ pre, pingOf host < pingOf g)) ∧
    (∀ pre host post, probed_hosts l = pre ++ host :: post →
      pingOf host < 999999 →
      (∀ x ∈ pre, pingOf host < pingOf x) →
      (∀ x ∈ post, pingOf host ≤ pingOf x) →
      chooseserver_probe pingOf l = some host) :=
  chooseserver_probe_char pingOf l

/-- Witness for C2 at a two-candidate list where the second probed host has
the strictly smaller latency. -/
theorem chooseserver_selects_first_min_witness :
    chooseserver_probe
      (fun host => if host = "b.example" then 30 else 50)
      ["http://a.example/speedtest/upload.php",
       "http://b.example/speedtest/upload.php"] = some "b.example" :=
  (chooseserver_selects_first_min
      (fun host => if host = "b.example" then 30 else 50)
      ["http://a.example/speedtest/upload.php",
       "http://b.example/speedtest/upload.php"]).2.2
    ["a.example"] "b.example" []
    (by decide) (by decide) (by decide) (by decide)

/-- C3 counterexample: eleven candidates where the ten nearest have
non-matching URLs and the only URL-matching candidate is eleventh.  The
claim implies the matching candidate is probed (skipped candidates not
counting against the 10) and, at latency 50, selected; the code probes
nothing and fails. -/
theorem chooseserver_limit_cex :
    probed_hosts
      ["x", "x", "x", "x", "x", "x", "x", "x", "x", "x",
       "http://good.example/speedtest/upload.php"] = [] ∧
    extract_upload_host "http://good.example/speedtest/upload.php"
      = some "good.example" ∧
    chooseserver_probe (fun _ => 50)
      ["x", "x", "x", "x", "x", "x", "x", "x", "x", "x",
       "http://good.example/speedtest/upload.php"] = none := by
  decide

/-- C3 (amended): the selector takes the first 10 entries of the
distance-sorted list and probes exactly the URL-matching candidates among
them; non-matching candidates among those 10 are skipped (not probed) but do
count against the limit of 10; at most 10 candidates are ever probed; and
when the whole list has at most 10 entries, every URL-matching candidate in
it is probed. -/
theorem chooseserver_probe_limit (pingOf : String → ℚ) (l : List String)
    (best : ℚ × String) :
    probeLoop pingOf (l.take 10) best
      = (probed_hosts l).foldl (probeStep pingOf) best ∧
    (∀ host, host ∈ probed_hosts l ↔
      ∃ url ∈ l.take 10, extract_upload_host url = some host) ∧
    (probed_hosts l).length ≤ 10 ∧
    (l.length ≤ 10 → probed_hosts l = l.filterMap extract_upload_host) := by
  refine ⟨?_, ?_, ?_, ?_⟩
  · rw [probeLoop_eq_foldl]
    rfl
  · intro host
    unfold probed_hosts
    exact List.mem_filterMap
  · unfold probed_hosts
    have h1 := List.length_filterMap_le extract_upload_host (l.take 10)
    have h2 := List.length_take 10 l
    omega
  · intro hlen
    unfold probed_hosts
    rw [List.take_of_length_le hlen]

/-- Witness for C3 at a single-candidate list: the inner implication holds
with the whole (length-1) list probed. -/
theorem chooseserver_probe_limit_witness :
    (["http://a.example/speedtest/upload.php"] : List String).length ≤ 10 ∧
    probed_hosts ["http://a.example/speedtest/upload.php"]
      = ["http://a.example/speedtest/upload.php"].filterMap extract_upload_host :=
  ⟨by decide,
    (chooseserver_probe_limit (fun _ => 50)
      ["http://a.example/speedtest/upload.php"] (999999, "")).2.2.2 (by decide)⟩

/-- C10: the probing phase commits only to hosts whose measured latency is
strictly below the 999999 sentinel; when every probed host's latency is at
least 999999, selection fails even though candidates matched the URL shape
and were probed. -/
theorem chooseserver_commit_below_sentinel (pingOf : String → ℚ)
    (l : List String) :
    (∀ host, chooseserver_probe pingOf l = some host → pingOf host < 999999) ∧
    ((∀ h ∈ probed_hosts l, 999999 ≤ pingOf h) →
      chooseserver_probe pingOf l = none) := by
  obtain ⟨hiff, hsome, -⟩ := chooseserver_probe_char pingOf l
  exact ⟨fun host hs => (hsome host hs).2.1, fun hall => hiff.mpr hall⟩

/-- Witness for C10: a probed candidate sitting exactly at the sentinel is
not committed to, so selection fails. -/
theorem chooseserver_commit_below_sentinel_witness :
    chooseserver_probe (fun _ => 999999)
      ["http://b.example/speedtest/upload.php",
       "http://c.example/speedtest/upload.php"] = none :=
  (chooseserver_commit_below_sentinel (fun _ => 999999)
      ["http://b.example/speedtest/upload.php",
       "http://c.example/speedtest/upload.php"]).2 (by decide)

/-! ## Server selection: geolocation and directory parsing
(`SpeedTest.chooseserver`, lines 206-243)

`re.search(r'<client ip="([^"]*)" lat="([^"]*)" lon="([^"]*)"', reply)` and
`re.findall(r'<server url="([^"]*)" lat="([^"]*)" lon="([^"]*)"', reply)`:
each `[^"]*` is a greedy run of non-quote characters followed by a literal
quote, so the matches are deterministic; `findall` resumes after each match.
When the client match fails, the code logs and `return None` — it does not
raise.  `bisect.insort_left` inserts `(distance, url)` tuples with Python's
lexicographic tuple order; the code's key is the square root of the squared
distance, and `Real.sqrt` is strictly monotone on nonnegative arguments, so
inserting by the (rational) squared distance puts every entry in exactly the
same position (`calc_distance_lt_iff_distSq`). -/

/-- The greedy `[^"]*` capture. -/
def take_quoted (cs : List Char) : List Char := cs.takeWhile (fun c => c ≠ '"')

/-- What remains after the `[^"]*` capture (starts at the closing quote). -/
def drop_quoted (cs : List Char) : List Char := cs.dropWhile (fun c => c ≠ '"')

/-- The client-location pattern, anchored at the start of the input. -/
def client_at (cs : List Char) : Option (String × String × String) :=
  match dropLit "<client ip=\"".data cs with
  | none => none
  | some r1 =>
    match dropLit "\" lat=\"".data (drop_quoted r1) with
    | none => none
    | some r3 =>
      match dropLit "\" lon=\"".data (drop_quoted r3) with
      | none => none
      | some r5 =>
        match dropLit "\"".data (drop_quoted r5) with
        | none => none
        | some _ =>
          some ((take_quoted r1).asString, (take_quoted r3).asString,
            (take_quoted r5).asString)

/-- `re.search` of the client pattern: leftmost match. -/
def search_client : List Char → Option (String × String × String)
  | [] => none
  | c :: cs =>
    match client_at (c :: cs) with
    | some t => some t
    | none => search_client cs

def parse_client (reply : String) : Option (String × String × String) :=
  search_client reply.data

/-- The server pattern, anchored at the start; also returns the remainder
after the match so that `findall` can resume there. -/
def server_at (cs : List Char) :
    Option ((String × String × String) × List Char) :=
  (dropLit "<server url=\"".data cs).bind fun r1 =>
  (dropLit "\" lat=\"".data (drop_quoted r1)).bind fun r3 =>
  (dropLit "\" lon=\"".data (drop_quoted r3)).bind fun r5 =>
  (dropLit "\"".data (drop_quoted r5)).map fun r6 =>
  (((take_quoted r1).asString, (take_quoted r3).asString,
    (take_quoted r5).asString), r6)

lemma dropLit_length : ∀ (p cs r : List Char), dropLit p cs = some r →
    cs.length = r.length + p.length := by
  intro p
  induction p with
  | nil =>
    intro cs r h
    injection h with h2
    rw [h2]
    simp
  | cons a ps ih =>
    intro cs r h
    cases cs with
    | nil => cases h
    | cons c cs2 =>
      unfold dropLit at h
      by_cases hac : a = c
      · rw [if_pos hac] at h
        have hx := ih cs2 r h
        simp only [List.length_cons]
        omega
      · rw [if_neg hac] at h
        cases h

lemma drop_quoted_length_le (cs : List Char) :
    (drop_quoted cs).length ≤ cs.length := by
  unfold drop_quoted
  induction cs with
  | nil => simp
  | cons c rest ih =>
    rw [List.dropWhile_cons]
    split
    · exact le_trans ih (by simp)
    · exact le_refl _

lemma server_at_tail_lt (cs : List Char) (t : String × String × String)
    (r : List Char) (h : server_at cs = some (t, r)) : r.length < cs.length := by
  unfold server_at at h
  obtain ⟨r1, h1, h⟩ := Option.bind_eq_some.mp h
  obtain ⟨r3, h3, h⟩ := Option.bind_eq_some.mp h
  obtain ⟨r5, h5, h⟩ := Option.bind_eq_some.mp h
  obtain ⟨r6, h6, h⟩ := Option.map_eq_some'.mp h
  have hr : r = r6 := (congrArg Prod.snd h).symm
  rw [hr]
  have l1 := dropLit_length _ cs r1 h1
  have l2 := drop_quoted_length_le r1
  have l3 := dropLit_length _ (drop_quoted r1) r3 h3
  have l4 := drop_quoted_length_le r3
  have l5 := dropLit_length _ (drop_quoted r3) r5 h5
  have l6 := drop_quoted_length_le r5
  have l7 := dropLit_length _ (drop_quoted r5) r6 h6
  have p1 : ("<server url=\"".data).length = 13 := rfl
  have p2 : ("\" lat=\"".data).length = 7 := rfl
  have p3 : ("\" lon=\"".data).length = 7 := rfl
  have p4 : ("\"".data).length = 1 := rfl
  omega

/-- `re.findall` of the server pattern: scan left to right, resume after
each match. -/
def findall_servers : List Char → List (String × String × String)
  | [] => []
  | c :: rest =>
    match hs : server_at (c :: rest) with
    | some (t, after) =>
      have hlt : after.length < (c :: rest).length :=
        server_at_tail_lt (c :: rest) t after hs
      t :: findall_servers after
    | none => findall_servers rest
termination_by cs => cs.length

def parse_servers (reply : String) : List (String × String × String) :=
  findall_servers reply.data

/-- The squared planar distance with the string coordinates converted by
`toNum` (the code's `float(...)`); the sort key modulo the monotone
`Real.sqrt`. -/
def distSq (toNum : String → ℚ) (location server : String × String × String) : ℚ :=
  (toNum server.2.1 - toNum location.2.1) ^ 2
    + (toNum server.2.2 - toNum location.2.2) ^ 2

/-- `Real.sqrt` preserves and reflects the comparisons `bisect.insort_left`
makes, so ordering by squared distance is ordering by the code's
`calc_distance`. -/
lemma calc_distance_lt_iff_distSq (toNum : String → ℚ)
    (loc s1 s2 : String × String × String) :
    (calc_distance (loc.1, ((toNum loc.2.1 : ℚ) : ℝ), ((toNum loc.2.2 : ℚ) : ℝ))
        (s1.1, ((toNum s1.2.1 : ℚ) : ℝ), ((toNum s1.2.2 : ℚ) : ℝ))
      < calc_distance (loc.1, ((toNum loc.2.1 : ℚ) : ℝ), ((toNum loc.2.2 : ℚ) : ℝ))
        (s2.1, ((toNum s2.2.1 : ℚ) : ℝ), ((toNum s2.2.2 : ℚ) : ℝ)))
    ↔ distSq toNum loc s1 < distSq toNum loc s2 := by
  unfold calc_distance distSq
  dsimp only
  rw [Real.sqrt_lt_sqrt_iff (by positivity)]
  norm_cast

/-- Python's tuple comparison `(d1, u1) < (d2, u2)`, used by
`bisect.insort_left`. -/
def tupleLtb (a b : ℚ × String) : Bool :=
  if a.1 < b.1 then true
  else if a.1 = b.1 then decide (a.2 < b.2)
  else false

/-- `bisect.insort_left`: insert before the leftmost element not smaller
than the new one. -/
def insort_left (x : ℚ × String) : List (ℚ × String) → List (ℚ × String)
  | [] => [x]
  | y :: ys => if tupleLtb y x then y :: insort_left x ys else x :: y :: ys

/-- `SpeedTest.chooseserver` end to end: fetch-and-parse the client location
(malformed reply: log and `return None`, modelled `Except.ok none`), parse
the server list, insort every candidate by (distance, url) — keyed here by
the squared distance, which `Real.sqrt`-monotonicity proves order-equivalent
to the code's key — then probe the 10 nearest and either return the winner
or raise (`Except.error`). -/
def chooseserver_model (toNum : String → ℚ) (pingOf : String → ℚ)
    (configReply serversReply : String) : Except String (Option String) :=
  match parse_client configReply with
  | none => Except.ok none
  | some location =>
    let server_list := parse_servers serversReply
    let sorted_server_list :=
      server_list.foldl
        (fun acc server =>
          insort_left (distSq toNum location server, server.1) acc) []
    match chooseserver_probe pingOf (sorted_server_list.map (fun p => p.2)) with
    | none => Except.error "Cannot find a test server"
    | some host => Except.ok (some host)

/-- C4 counterexample: on a geolocation reply without the expected fields the
code returns the non-error value `None` (`Except.ok none`) — it does not
raise `NoServerFoundError`. -/
theorem chooseserver_malformed_cex :
    chooseserver_model (fun _ => 0) (fun _ => 0) "<html>busy</html>" ""
      = Except.ok none := by
  rfl

/-- C4 (amended): when the geolocation reply lacks the expected ip/lat/lon
fields, `chooseserver` neither crashes nor raises: it logs the
failed-to-retrieve-coordinates message and immediately returns the non-error
value `None`, whatever the rest of the inputs are. -/
theorem chooseserver_malformed_returns_none (toNum : String → ℚ)
    (pingOf : String → ℚ) (configReply serversReply : String)
    (h : parse_client configReply = none) :
    chooseserver_model toNum pingOf configReply serversReply = Except.ok none := by
  unfold chooseserver_model
  rw [h]

/-- Witness for C4 at a concrete field-free reply. -/
theorem chooseserver_malformed_returns_none_witness :
    parse_client "no coordinates here" = none ∧
    chooseserver_model (fun _ => 1) (fun _ => 2) "no coordinates here"
        "<server url=\"http://d.example/speedtest/upload.php\" lat=\"1\" lon=\"2\""
      = Except.ok none :=
  ⟨by decide,
    chooseserver_malformed_returns_none (fun _ => 1) (fun _ => 2)
      "no coordinates here"
      "<server url=\"http://d.example/speedtest/upload.php\" lat=\"1\" lon=\"2\""
      (by decide)⟩

end SpeedTest
